import Mathlib

/-!
Verification of the tts-audiobook annotation-and-synthesis pipeline.

Python strings are modelled as `List Char`; the regular-expression
substitutions actually used by the code (fixed word-alternation patterns,
punctuation-plus-whitespace patterns, newline patterns) are modelled by
dedicated scanners that mirror Python `re.sub` semantics: leftmost match,
left-to-right scan, no rescanning of replacement text.  Python floats are
modelled by `ℚ`; every float literal in the code (0.1 .. 0.8, 1.5) and every
comparison performed on them is exact at the magnitudes involved, so the
rational model agrees with the float code on all inputs except values within
one double ulp of a threshold.  Length-ratio checks such as
`len(a) >= len(t) * 0.8` are modelled by the equivalent integer comparison
`5 * len(a) >= 4 * len(t)` (exact for all string lengths below 2^50).
Scanners recurse on an explicit fuel argument initialised to the string
length, which is always sufficient because every step consumes at least one
character; this keeps all definitions kernel-computable.
-/

/-- Convert a string literal to the `List Char` model. -/
def toL (s : String) : List Char := s.data

/-- Python whitespace (`str.strip`, regex `\s`), ASCII range. -/
def isPySpace (c : Char) : Bool :=
  c == ' ' || c == '\t' || c == '\n' || c == '\r' || c == '\x0b' || c == '\x0c'

/-- Python `str.lstrip`. -/
def lstripL (s : List Char) : List Char := s.dropWhile isPySpace

/-- Python `str.rstrip`. -/
def rstripL (s : List Char) : List Char := (s.reverse.dropWhile isPySpace).reverse

/-- Python `str.strip`. -/
def pyStrip (s : List Char) : List Char := rstripL (lstripL s)

/-- Python `str.lower` (ASCII model). -/
def lowerL (s : List Char) : List Char := s.map Char.toLower

/-- Bool test that `p` is a leading segment of `s` (Python `str.startswith`). -/
def leadsWith : List Char → List Char → Bool
  | [], _ => true
  | _ :: _, [] => false
  | p :: ps, c :: cs => p == c && leadsWith ps cs

/-- Bool test that `p` is a trailing segment of `s` (Python `str.endswith`). -/
def trailsWith (p s : List Char) : Bool := leadsWith p.reverse s.reverse

/-- Python substring containment (`pat in s`). -/
def containsSub : List Char → List Char → Bool
  | pat, [] => pat.isEmpty
  | pat, c :: rest => leadsWith pat (c :: rest) || containsSub pat rest

/-- Join a list of strings with a separator (used to state reassembly facts). -/
def joinWith (sep : List Char) : List (List Char) → List Char
  | [] => []
  | [x] => x
  | x :: y :: rest => x ++ sep ++ joinWith sep (y :: rest)

/-- Split into maximal whitespace-free words (for whitespace normalization). -/
def wordsWSFuel : ℕ → List Char → List (List Char)
  | 0, _ => []
  | _, [] => []
  | fuel + 1, c :: rest =>
    if isPySpace c then wordsWSFuel fuel rest
    else (c :: rest.takeWhile (fun d => !isPySpace d)) ::
      wordsWSFuel fuel (rest.dropWhile (fun d => !isPySpace d))

/-- Whitespace normalization: words rejoined with single spaces. -/
def normWS (s : List Char) : List Char := joinWith [' '] (wordsWSFuel s.length s)

/-- Regex `\w` (ASCII model): letters, digits, underscore. -/
def isWordChar (c : Char) : Bool := c.isAlphanum || c == '_'

/-- One attempted match of `\b(w)\b` (IGNORECASE) at the current position.
`prev` is the character before the position (`none` at string start).  Every
alternation word in the source starts and ends with a word character, so the
boundary tests reduce to: previous char absent or non-word, following char
absent or non-word. -/
def wordMatchAt (prev : Option Char) (w s : List Char) : Bool :=
  decide (w.length ≤ s.length) &&
  (lowerL (s.take w.length) == lowerL w) &&
  (match prev with | none => true | some p => !isWordChar p) &&
  (match (s.drop w.length).head? with | none => true | some a => !isWordChar a)

/-- First alternation word matching at the current position (regex alternation
tries alternatives in listed order). -/
def findWordLen (words : List (List Char)) (prev : Option Char) (s : List Char) : Option ℕ :=
  (words.find? (fun w => wordMatchAt prev w s)).map List.length

/-- Scanner for `re.sub(r'\b(w1|w2|...)\b', r'\1 TAG', s, flags=IGNORECASE)`:
the matched text is kept (preserving its original case) and `tag` is appended
after it; scanning resumes after the match. -/
def subWordAltFuel (words : List (List Char)) (tag : List Char) :
    ℕ → Option Char → List Char → List Char
  | 0, _, s => s
  | _, _, [] => []
  | fuel + 1, prev, c :: rest =>
    match findWordLen words prev (c :: rest) with
    | some n =>
      (c :: rest).take n ++ tag ++
        subWordAltFuel words tag fuel ((c :: rest).take n).getLast? ((c :: rest).drop n)
    | none => c :: subWordAltFuel words tag fuel (some c) rest

/-- `re.sub` for the word-alternation emotion patterns. -/
def subWordAlt (words : List (List Char)) (tag : List Char) (s : List Char) : List Char :=
  subWordAltFuel words tag s.length none s

/-- Scanner for `re.sub(r'([P])\s+', r'\1INS', s)` where `P` is a character
class: the punctuation character is kept, the whitespace run is consumed, and
`ins` (which carries the replacement's trailing space) is emitted. -/
def subPunctWsFuel (puncts : List Char) (ins : List Char) : ℕ → List Char → List Char
  | 0, s => s
  | _, [] => []
  | fuel + 1, c :: rest =>
    if puncts.contains c && (match rest.head? with | some h => isPySpace h | none => false) then
      c :: ins ++ subPunctWsFuel puncts ins fuel (rest.dropWhile isPySpace)
    else c :: subPunctWsFuel puncts ins fuel rest

/-- `re.sub(r'([P])\s+', r'\1INS', s)`. -/
def subPunctWs (puncts : List Char) (ins : List Char) (s : List Char) : List Char :=
  subPunctWsFuel puncts ins s.length s

/-- Scanner for `re.sub(r',(\s+)', r', (brief pause)\1', s)`: the comma is
kept, the insertion is emitted, then the captured whitespace run is kept. -/
def subCommaWsFuel : ℕ → List Char → List Char
  | 0, s => s
  | _, [] => []
  | fuel + 1, c :: rest =>
    if c == ',' && (match rest.head? with | some h => isPySpace h | none => false) then
      c :: toL " (brief pause)" ++ rest.takeWhile isPySpace ++
        subCommaWsFuel fuel (rest.dropWhile isPySpace)
    else c :: subCommaWsFuel fuel rest

/-- `re.sub(r',(\s+)', r', (brief pause)\1', s)`. -/
def subCommaWs (s : List Char) : List Char := subCommaWsFuel s.length s

/-- Scanner for `re.sub(r'([.!?])(\s+)(?!\()', r'\1 (pauses)\2', s)`.
The greedy `\s+` backtracks against the negative lookahead: with a whitespace
run of length m followed by `(`, the match succeeds with m-1 whitespace
characters when m ≥ 2 and fails when m = 1. -/
def subPunctWsNoParenFuel : ℕ → List Char → List Char
  | 0, s => s
  | _, [] => []
  | fuel + 1, c :: rest =>
    if (c == '.' || c == '!' || c == '?') &&
        (match rest.head? with | some h => isPySpace h | none => false) then
      let w := rest.takeWhile isPySpace
      let after := rest.dropWhile isPySpace
      if after.head? != some '(' then
        c :: toL " (pauses)" ++ w ++ subPunctWsNoParenFuel fuel after
      else if 2 ≤ w.length then
        c :: toL " (pauses)" ++ w.take (w.length - 1) ++
          subPunctWsNoParenFuel fuel (w.drop (w.length - 1) ++ after)
      else c :: subPunctWsNoParenFuel fuel rest
    else c :: subPunctWsNoParenFuel fuel rest

/-- `re.sub(r'([.!?])(\s+)(?!\()', r'\1 (pauses)\2', s)`. -/
def subPunctWsNoParen (s : List Char) : List Char := subPunctWsNoParenFuel s.length s

/-- Scanner for `re.sub(r'\n\n+', r' (inhales) ', s)`: a maximal run of two or
more newlines is replaced. -/
def subInhaleFuel : ℕ → List Char → List Char
  | 0, s => s
  | _, [] => []
  | fuel + 1, c :: rest =>
    if c == '\n' && rest.head? == some '\n' then
      toL " (inhales) " ++ subInhaleFuel fuel ((c :: rest).dropWhile (fun d => d == '\n'))
    else c :: subInhaleFuel fuel rest

/-- `re.sub(r'\n\n+', r' (inhales) ', s)`. -/
def subInhale (s : List Char) : List Char := subInhaleFuel s.length s

/-- Python `str.replace(pat, rep)`: left-to-right, non-overlapping. -/
def pyReplaceFuel (pat rep : List Char) : ℕ → List Char → List Char
  | 0, s => s
  | _, [] => []
  | fuel + 1, c :: rest =>
    if leadsWith pat (c :: rest) then
      rep ++ pyReplaceFuel pat rep fuel ((c :: rest).drop pat.length)
    else c :: pyReplaceFuel pat rep fuel rest

/-- Python `str.replace(pat, rep)` (for non-empty `pat`). -/
def pyReplace (pat rep s : List Char) : List Char := pyReplaceFuel pat rep s.length s

/-- `str.replace('\n\n', ' ')`, given good equations for proofs. -/
def replDD : List Char → List Char
  | [] => []
  | [c] => [c]
  | c1 :: c2 :: rest =>
    if c1 == '\n' && c2 == '\n' then ' ' :: replDD rest
    else c1 :: replDD (c2 :: rest)

/-- `str.replace('\n', ' ')`. -/
def replNL (s : List Char) : List Char := s.map (fun c => if c == '\n' then ' ' else c)

/-- Python `str.split(sep)` for a single-character separator. -/
def splitOnChar (sep : Char) (s : List Char) : List (List Char) :=
  s.foldr
    (fun c acc =>
      match acc with
      | [] => if c == sep then [[], []] else [[c]]
      | p :: ps => if c == sep then [] :: p :: ps else (c :: p) :: ps)
    [[]]

/-- `re.split(r'[.!?]+', s)`: pieces between maximal runs of sentence-terminal
punctuation (empty pieces included, as produced by Python). Implemented as a
right fold carrying a flag telling whether the character to the right was a
terminator. -/
def splitSentences (s : List Char) : List (List Char) :=
  (s.foldr
    (fun c st =>
      if c == '.' || c == '!' || c == '?' then
        (if st.2 then st.1 else [] :: st.1, true)
      else
        (match st.1 with
         | [] => [[c]]
         | p :: ps => (c :: p) :: ps, false))
    ([[]], false)).1

/-- Suffix of `s` after the first occurrence of `pat`, if any. -/
def afterFirstSub : List Char → List Char → Option (List Char)
  | pat, [] => if pat.isEmpty then some [] else none
  | pat, c :: rest =>
    if leadsWith pat (c :: rest) then some ((c :: rest).drop pat.length)
    else afterFirstSub pat rest

/-- Python `s.split(pat)[-1]`: suffix after the last of the non-overlapping
left-to-right occurrences of `pat`. -/
def afterLastSubFuel : ℕ → List Char → List Char → List Char
  | 0, _, s => s
  | fuel + 1, pat, s =>
    match afterFirstSub pat s with
    | none => s
    | some r => afterLastSubFuel fuel pat r

/-- Python `s.split(pat)[-1]` (for non-empty `pat`). -/
def afterLastSub (pat s : List Char) : List Char := afterLastSubFuel s.length pat s

/-! Translations of `src/backend/local_annotator.py`. -/

namespace LocalAnnotator

/-- One entry of the `emotion_rules` table of
`LocalAnnotator.annotate_with_rules` (src/backend/local_annotator.py:212). -/
structure EmotionRule where
  words : List (List Char)
  tag : List Char
  minIntensity : ℚ

/-- The fixed `emotion_rules` table (src/backend/local_annotator.py:212-222). -/
def emotion_rules : List EmotionRule :=
  [ ⟨[toL "ha ha", toL "haha", toL "funny", toL "joke", toL "humor"], toL " (laughs)", mkRat 2 10⟩,
    ⟨[toL "oh dear", toL "oh no", toL "unfortunately", toL "sadly"], toL " (sighs)", mkRat 3 10⟩,
    ⟨[toL "wow", toL "amazing", toL "incredible", toL "unbelievable"], toL " (gasps)", mkRat 4 10⟩,
    ⟨[toL "whisper", toL "quietly", toL "softly"], toL " (whispers)", mkRat 1 10⟩,
    ⟨[toL "ahem", toL "um", toL "well"], toL " (clears throat)", mkRat 3 10⟩,
    ⟨[toL "tired", toL "exhausted", toL "weary"], toL " (sighs)", mkRat 2 10⟩,
    ⟨[toL "surprise", toL "shocked", toL "startled"], toL " (gasps)", mkRat 4 10⟩,
    ⟨[toL "cough", toL "cold", toL "sick"], toL " (coughs)", mkRat 3 10⟩ ]

/-- The loop body of `annotate_with_rules` (src/backend/local_annotator.py:225-227):
`if intensity >= min_intensity and random.random() < intensity: re.sub(...)`.
Python's `and` short-circuits, so a draw is consumed only for rules whose
`min_intensity` is reached; the state carries the next draw index. -/
def ruleStep (intensity : ℚ) (rnd : ℕ → ℚ) (st : List Char × ℕ) (r : EmotionRule) :
    List Char × ℕ :=
  if r.minIntensity ≤ intensity then
    if rnd st.2 < intensity then (subWordAlt r.words r.tag st.1, st.2 + 1)
    else (st.1, st.2 + 1)
  else st

/-- `LocalAnnotator.annotate_with_rules` (src/backend/local_annotator.py:205-237).
The stream of `random.random()` draws is made explicit as `rnd : ℕ → ℚ`,
indexed in consumption order; a faithful run has every `rnd k` in `[0, 1)`. -/
def annotate_with_rules (text : List Char) (intensity : ℚ) (rnd : ℕ → ℚ) : List Char :=
  let annotated := (emotion_rules.foldl (ruleStep intensity rnd) (text, 0)).1
  let annotated :=
    if mkRat 3 10 < intensity then subPunctWs ['.', '!', '?'] (toL " (pauses) ") annotated
    else annotated
  if mkRat 5 10 < intensity then subInhale annotated else annotated

/-- The loop of `LocalAnnotator.split_text_into_chunks`
(src/backend/local_annotator.py:266-281): greedy accumulation of stripped,
non-blank sentences into chunks. -/
def chunksLoop (maxLen : ℕ) : List (List Char) → List (List Char) → List Char → List (List Char)
  | [], chunks, current => if current = [] then chunks else chunks ++ [pyStrip current]
  | s :: rest, chunks, current =>
    let s2 := pyStrip s
    if s2 = [] then chunksLoop maxLen rest chunks current
    else if current.length + s2.length < maxLen then
      chunksLoop maxLen rest chunks (current ++ s2 ++ toL ". ")
    else
      chunksLoop maxLen rest (if current = [] then chunks else chunks ++ [pyStrip current])
        (s2 ++ toL ". ")

/-- `LocalAnnotator.split_text_into_chunks` (src/backend/local_annotator.py:262-283);
the source's `max_length` parameter defaults to 200. -/
def split_text_into_chunks (text : List Char) (maxLen : ℕ) : List (List Char) :=
  let cs := chunksLoop maxLen (splitSentences text) [] []
  if cs = [] then [text] else cs

/-- `LocalAnnotator.add_natural_pauses` (src/backend/local_annotator.py:285-293):
comma rule first, then the sentence-ending rule guarded by the `(?!\()`
lookahead ("if not already added"). -/
def add_natural_pauses (text : List Char) : List Char :=
  subPunctWsNoParen (subCommaWs text)

end LocalAnnotator

/-! Translations of the code shared verbatim by `src/backend.py` and
`src/backend/backend.py`. -/

namespace Backend

/-- `add_rule_based_annotations` (src/backend.py:247-266 and
src/backend/backend.py:290-309; the two revisions are identical). -/
def add_rule_based_annotations (text : List Char) (intensity : ℚ) : List Char :=
  let a := text
  let a :=
    if mkRat 3 10 < intensity then
      subWordAlt [toL "whisper", toL "quietly", toL "softly"] (toL " (whispers)")
        (subWordAlt [toL "wow", toL "amazing", toL "incredible"] (toL " (gasps)")
          (subWordAlt [toL "oh dear", toL "oh no", toL "unfortunately"] (toL " (sighs)")
            (subWordAlt [toL "ha ha", toL "haha", toL "funny", toL "joke"] (toL " (laughs)") a)))
    else a
  if mkRat 7 10 < intensity then
    subPunctWs [',', ';', ':'] (toL " (brief pause) ")
      (subPunctWs ['.', '!', '?'] (toL " (pauses) ") a)
  else a

/-- `add_natural_pauses` (src/backend.py:268-273 and
src/backend/backend.py:311-316; identical in both revisions, and with no
lookahead guard against markers that are already present). -/
def add_natural_pauses (text : List Char) : List Char :=
  subPunctWs [',', ';', ':'] (toL " (brief pause) ")
    (subPunctWs ['.', '!', '?'] (toL " (pauses) ") text)

/-- Outcome of the HTTP POST to the remote Ollama annotation service:
`none` models an exception (connection failure, timeout), `some (status, body)`
models a delivered response with the text of its `response` field. -/
def RemoteResp : Type := Option (ℕ × List Char)

/-- Settings dictionary as consumed by the core (`settings.get` with a
default). -/
structure PySettings where
  addEmotions : Option Bool
  emotionIntensity : Option ℚ
  addPauses : Option Bool

/-- `dict.get(key, default)`. -/
def getD {α : Type} (o : Option α) (d : α) : α := o.getD d

/-- `str(HTTPException(status, detail))`: starlette formats it as
`f"{status_code}: {detail}"`. -/
def pyStr (e : ℕ × List Char) : List Char := toL (toString e.1) ++ toL ": " ++ e.2

end Backend

/-! Translation of `src/backend.py` (first revision). -/

namespace BackendV1

/-- `add_emotional_annotations` (src/backend.py:200-245).  `avail` models
`annotation_model is not None`; `remote` the outcome of the `requests.post`
call.  Returns the annotated text and whether the remote backend was invoked.
The acceptance check `len(enhanced_text) >= len(text) * 0.8` is modelled by
the exact integer comparison `5 * len(enhanced) >= 4 * len(text)`. -/
def add_emotional_annotations (text : List Char) (intensity : ℚ) (avail : Bool)
    (remote : Backend.RemoteResp) : List Char × Bool :=
  if !avail then (Backend.add_rule_based_annotations text intensity, false)
  else
    match remote with
    | none => (Backend.add_rule_based_annotations text intensity, true)
    | some (status, body) =>
      if status = 200 then
        let e1 := pyStrip body
        let e2 :=
          if containsSub (toL "Enhanced text:") e1 then
            pyStrip (afterLastSub (toL "Enhanced text:") e1)
          else e1
        if e2 ≠ [] ∧ 4 * text.length ≤ 5 * e2.length then (e2, true)
        else (Backend.add_rule_based_annotations text intensity, true)
      else (Backend.add_rule_based_annotations text intensity, true)

/-- The body of the `annotate_text` endpoint (src/backend.py:137-162) before
the blanket `except Exception` handler: empty text raises
`HTTPException(400, "Text is required")`; otherwise emotions and pauses are
applied according to the settings. -/
def annotateBody (avail : Bool) (remote : Backend.RemoteResp) (text : List Char)
    (s : Backend.PySettings) : Except (ℕ × List Char) (List Char) × Bool :=
  if text = [] then (Except.error (400, toL "Text is required"), false)
  else
    let r1 :=
      if Backend.getD s.addEmotions true then
        add_emotional_annotations text (Backend.getD s.emotionIntensity (mkRat 7 10)) avail remote
      else (text, false)
    let r2 := if Backend.getD s.addPauses true then Backend.add_natural_pauses r1.1 else r1.1
    (Except.ok r2, r1.2)

/-- The `annotate_text` endpoint (src/backend.py:137-166): the `try` body
wrapped by `except Exception as e: raise HTTPException(500, f"Failed to
annotate text: {str(e)}")`, which also catches the 400 raised for empty
text. -/
def annotate_text (avail : Bool) (remote : Backend.RemoteResp) (text : List Char)
    (s : Backend.PySettings) : Except (ℕ × List Char) (List Char) × Bool :=
  match annotateBody avail remote text s with
  | (Except.ok a, c) => (Except.ok a, c)
  | (Except.error e, c) =>
    (Except.error (500, toL "Failed to annotate text: " ++ Backend.pyStr e), c)

/-- `preprocess_text_for_dia` (src/backend.py:331-348). -/
def preprocess_text_for_dia (text : List Char) : List Char :=
  let t1 :=
    if !(leadsWith (toL "[S1]") (pyStrip text)) && !(leadsWith (toL "[S2]") (pyStrip text)) then
      toL "[S1] " ++ text
    else text
  let t2 := replNL (replDD t1)
  if !(trailsWith (toL "[S1]") (pyStrip t2)) && !(trailsWith (toL "[S2]") (pyStrip t2)) then
    let lastSpeaker := if containsSub (toL "[S2]") t2 then toL "[S2]" else toL "[S1]"
    t2 ++ [' '] ++ lastSpeaker
  else t2

end BackendV1

/-! Translation of `src/backend/backend.py` (second revision). -/

namespace BackendV2

/-- `add_emotional_annotations` (src/backend/backend.py:241-288).  The 200
response body is cleaned (`.replace('"', '').strip()`); if it starts with the
original text the remainder is appended to the original; otherwise it is
accepted only if it contains the original text case-insensitively and is at
most 1.5 times its length (`2 * len(e) <= 3 * len(text)` exactly). -/
def add_emotional_annotations (text : List Char) (intensity : ℚ) (avail : Bool)
    (remote : Backend.RemoteResp) : List Char × Bool :=
  if !avail then (Backend.add_rule_based_annotations text intensity, false)
  else
    match remote with
    | none => (Backend.add_rule_based_annotations text intensity, true)
    | some (status, body) =>
      if status = 200 then
        let e1 := pyStrip body
        let e2 := pyStrip (e1.filter (fun c => c != '\"'))
        if leadsWith text e2 then
          let r := pyStrip (e2.drop text.length)
          if r ≠ [] then (text ++ [' '] ++ r, true)
          else
            if containsSub (lowerL text) (lowerL r) ∧ 2 * r.length ≤ 3 * text.length then (r, true)
            else (Backend.add_rule_based_annotations text intensity, true)
        else
          if containsSub (lowerL text) (lowerL e2) ∧ 2 * e2.length ≤ 3 * text.length then (e2, true)
          else (Backend.add_rule_based_annotations text intensity, true)
      else (Backend.add_rule_based_annotations text intensity, true)

/-- The body of the `annotate_text` endpoint (src/backend/backend.py:178-203)
before the blanket `except Exception` handler. -/
def annotateBody (avail : Bool) (remote : Backend.RemoteResp) (text : List Char)
    (s : Backend.PySettings) : Except (ℕ × List Char) (List Char) × Bool :=
  if text = [] then (Except.error (400, toL "Text is required"), false)
  else
    let r1 :=
      if Backend.getD s.addEmotions true then
        add_emotional_annotations text (Backend.getD s.emotionIntensity (mkRat 7 10)) avail remote
      else (text, false)
    let r2 := if Backend.getD s.addPauses true then Backend.add_natural_pauses r1.1 else r1.1
    (Except.ok r2, r1.2)

/-- The `annotate_text` endpoint (src/backend/backend.py:178-207): the body
wrapped by `except Exception as e: raise HTTPException(500, f"Failed to
annotate text: {str(e)}")`, which also catches the 400 raised for empty
text. -/
def annotate_text (avail : Bool) (remote : Backend.RemoteResp) (text : List Char)
    (s : Backend.PySettings) : Except (ℕ × List Char) (List Char) × Bool :=
  match annotateBody avail remote text s with
  | (Except.ok a, c) => (Except.ok a, c)
  | (Except.error e, c) =>
    (Except.error (500, toL "Failed to annotate text: " ++ Backend.pyStr e), c)

/-- The `generate_audio` endpoint (src/backend/backend.py:209-239).  `tts`
models `generate_tts_audio` as an oracle from the processed text to either
audio bytes or a raised `HTTPException`; the result records whether the
annotation backend and the TTS backend were invoked.  Every exception of the
body is caught and re-raised as
`HTTPException(500, f"Failed to generate audio: {str(e)}")`. -/
def generate_audio {α : Type} (avail : Bool) (remote : Backend.RemoteResp)
    (tts : List Char → Except (ℕ × List Char) α) (text : List Char)
    (s : Backend.PySettings) : Except (ℕ × List Char) α × Bool × Bool :=
  if text = [] then
    (Except.error (500, toL "Failed to generate audio: " ++ Backend.pyStr (400, toL "Text is required")),
      false, false)
  else
    let ann :=
      if Backend.getD s.addEmotions true || Backend.getD s.addPauses true then
        annotate_text avail remote text s
      else (Except.ok text, false)
    match ann with
    | (Except.error e, c) =>
      (Except.error (500, toL "Failed to generate audio: " ++ Backend.pyStr e), c, false)
    | (Except.ok processed, c) =>
      match tts processed with
      | Except.error e =>
        (Except.error (500, toL "Failed to generate audio: " ++ Backend.pyStr e), c, true)
      | Except.ok audio => (Except.ok audio, c, true)

/-- The `f"[{speaker}]"` speaker name used by `preprocess_text_for_dia`
(src/backend/backend.py:449-467): `true` stands for `"S2"`, `false` for
`"S1"`. -/
def diaSpeaker (spk2 : Bool) : List Char := if spk2 then toL "S2" else toL "S1"

/-- One iteration of the multi-sentence loop of `preprocess_text_for_dia`
(src/backend/backend.py:452-463): on a positive odd index the speaker is
flipped and a marker emitted, the sentence is appended, and after the middle
sentence (`i == len(sentences) // 2`, with `n` the sentence count)
". Amazing!" is injected. -/
def diaStep (n : ℕ) (st : List Char × Bool) (is : ℕ × List Char) : List Char × Bool :=
  let st1 :=
    if 0 < is.1 ∧ is.1 % 2 = 1 then
      (st.1 ++ toL " [" ++ diaSpeaker (!st.2) ++ toL "] ", !st.2)
    else st
  let r2 := st1.1 ++ is.2
  let r3 := if is.1 = n / 2 then r2 ++ toL ". Amazing!" else r2
  (r3, st1.2)

/-- `preprocess_text_for_dia` (src/backend/backend.py:430-469).  The sentence
split `.replace('.', '.|').replace('!', '!|').replace('?', '?|').split('|')`
is mirrored literally; the multi-sentence branch folds `diaStep` over the
enumerated sentences and appends a closing turn for the opposite speaker. -/
def preprocess_text_for_dia (text : List Char) : List Char :=
  let t := pyStrip (replNL (replDD text))
  if t.length < 20 then
    toL "[S2] Here is what you wanted to hear. [S1] " ++ t ++
      toL ". Amazing! [S2] That was perfect."
  else
    let parts := splitOnChar '|'
      (pyReplace (toL "?") (toL "?|")
        (pyReplace (toL "!") (toL "!|")
          (pyReplace (toL ".") (toL ".|") t)))
    let sentences := (parts.map pyStrip).filter (fun s => s ≠ [])
    if sentences.length = 1 then
      toL "[S2] Let me read this for you. [S1] " ++ sentences.headI ++
        toL ". That's great! [S2] Hope you enjoyed that."
    else
      let fin := sentences.enum.foldl (diaStep sentences.length) (toL "[S2] ", true)
      fin.1 ++ toL " [" ++ diaSpeaker (!fin.2) ++ toL "] That was excellent."

/-- The adaptive token budget of `generate_tts_audio`
(src/backend/backend.py:348-352): `char_count = len(processed_text)`,
`base_tokens = char_count * 25`, `max_tokens = max(1536, min(base_tokens, 3072))`. -/
def max_tokens_for (text : List Char) : ℕ :=
  let processed := preprocess_text_for_dia text
  let charCount := processed.length
  let baseTokens := charCount * 25
  max 1536 (min baseTokens 3072)

/-- Mutable state of the shared Dia model object as far as
`generate_tts_audio` touches it: its `forward` attribute. -/
structure DiaModelState (F : Type) where
  forward : F

/-- Python `try: body finally: fin` for a body that either returns or raises
(captured in `Except`): the finaliser runs on both paths. -/
def tryFinally {σ E α : Type} (body : σ → Except E α × σ) (fin : σ → σ) (st : σ) :
    Except E α × σ :=
  let r := body st
  (r.1, fin r.2)

/-- The instrumentation section of `generate_tts_audio`
(src/backend/backend.py:357-391): save `original_forward`, install the
progress wrapper (`instrument original`), run `model.generate` (which may
succeed or raise), and restore the original forward method in a `finally`
block. -/
def patchForwardAndGenerate {F E α : Type} (instrument : F → F)
    (generate : DiaModelState F → Except E α × DiaModelState F)
    (m : DiaModelState F) : Except E α × DiaModelState F :=
  let originalForward := m.forward
  let patched : DiaModelState F := ⟨instrument originalForward⟩
  tryFinally generate (fun m2 => { m2 with forward := originalForward }) patched

end BackendV2

/-! Spec-side definitions used to state the claims. -/

deriving instance DecidableEq for Except

/-- The separator `". "` appended after every accumulated sentence. -/
def dotSp : List Char := toL ". "

/-- The stripped, non-blank sentences of a sentence list. -/
def filterSS (ss : List (List Char)) : List (List Char) :=
  (ss.map pyStrip).filter (fun s => s ≠ [])

/-- The stripped, non-blank sentences the chunker works on. -/
def sentencesN (text : List Char) : List (List Char) := filterSS (splitSentences text)

/-- The chunk string formed from a group of consecutive sentences. -/
def chunkOf (g : List (List Char)) : List Char := joinWith dotSp g ++ ['.']

/-- The raw (unstripped) accumulator value corresponding to a group of
sentences: every sentence followed by `". "`. -/
def rawOf (g : List (List Char)) : List Char := (g.map (fun s => s ++ dotSp)).flatten

/-- Speaker markers occurring in a string, in order (`true` for `[S1]`,
`false` for `[S2]`), scanning left to right without overlap. -/
def markersOfFuel : ℕ → List Char → List Bool
  | 0, _ => []
  | _, [] => []
  | fuel + 1, c :: rest =>
    if leadsWith (toL "[S1]") (c :: rest) then true :: markersOfFuel fuel ((c :: rest).drop 4)
    else if leadsWith (toL "[S2]") (c :: rest) then false :: markersOfFuel fuel ((c :: rest).drop 4)
    else markersOfFuel fuel rest

/-- Speaker markers occurring in a string, in order. -/
def markersOf (s : List Char) : List Bool := markersOfFuel s.length s

/-- No two adjacent entries equal (strict speaker alternation). -/
def adjDistinct : List Bool → Bool
  | [] => true
  | [_] => true
  | a :: b :: rest => (a != b) && adjDistinct (b :: rest)

/-! Foundational lemmas about stripping. -/

theorem lstripL_head_not_space (x : List Char) :
    ∀ c, (lstripL x).head? = some c → isPySpace c = false := by
  induction x with
  | nil => intro c h; simp [lstripL] at h
  | cons a t ih =>
    intro c h
    by_cases ha : isPySpace a
    · rw [lstripL, List.dropWhile_cons, if_pos ha] at h
      exact ih c h
    · rw [lstripL, List.dropWhile_cons, if_neg ha] at h
      simp at h
      rw [← h]
      exact Bool.of_not_eq_true ha

theorem lstripL_eq_self (x : List Char)
    (h : ∀ c, x.head? = some c → isPySpace c = false) : lstripL x = x := by
  cases x with
  | nil => rfl
  | cons a t =>
    rw [lstripL, List.dropWhile_cons, if_neg]
    simp [h a rfl]

theorem rstripL_getLast_not_space (x : List Char) :
    ∀ c, (rstripL x).getLast? = some c → isPySpace c = false := by
  intro c h
  rw [rstripL, List.getLast?_reverse] at h
  exact lstripL_head_not_space x.reverse c h

theorem rstripL_eq_self (x : List Char)
    (h : ∀ c, x.getLast? = some c → isPySpace c = false) : rstripL x = x := by
  have h2 : lstripL x.reverse = x.reverse := by
    apply lstripL_eq_self
    intro c hc
    apply h
    rw [← List.getLast?_reverse, x.reverse_reverse] at hc
    exact hc
  rw [rstripL]
  rw [show x.reverse.dropWhile isPySpace = lstripL x.reverse from rfl, h2, x.reverse_reverse]

theorem rstripL_decomp (x : List Char) :
    ∃ w, x = rstripL x ++ w ∧ ∀ c ∈ w, isPySpace c = true := by
  refine ⟨(x.reverse.takeWhile isPySpace).reverse, ?_, ?_⟩
  · rw [rstripL, ← List.reverse_append, List.takeWhile_append_dropWhile, x.reverse_reverse]
  · intro c hc
    rw [List.mem_reverse] at hc
    exact List.mem_takeWhile_imp hc

theorem lstripL_decomp (x : List Char) :
    ∃ w, x = w ++ lstripL x ∧ ∀ c ∈ w, isPySpace c = true := by
  refine ⟨x.takeWhile isPySpace, (List.takeWhile_append_dropWhile ..).symm, ?_⟩
  intro c hc
  exact List.mem_takeWhile_imp hc

theorem pyStrip_head_not_space (x : List Char) :
    ∀ c, (pyStrip x).head? = some c → isPySpace c = false := by
  intro c h
  rw [pyStrip] at h
  obtain ⟨w, hw, _⟩ := rstripL_decomp (lstripL x)
  have hpre : (rstripL (lstripL x)).head? = some c → (lstripL x).head? = some c := by
    intro hh
    rw [hw]
    cases hr : rstripL (lstripL x) with
    | nil => rw [hr] at hh; simp at hh
    | cons a t => rw [hr] at hh; simp at hh; simp [hh]
  exact lstripL_head_not_space x c (hpre h)

theorem pyStrip_getLast_not_space (x : List Char) :
    ∀ c, (pyStrip x).getLast? = some c → isPySpace c = false := by
  intro c h
  exact rstripL_getLast_not_space (lstripL x) c h

theorem pyStrip_eq_self (x : List Char)
    (h1 : ∀ c, x.head? = some c → isPySpace c = false)
    (h2 : ∀ c, x.getLast? = some c → isPySpace c = false) : pyStrip x = x := by
  rw [pyStrip, lstripL_eq_self x h1, rstripL_eq_self x h2]

theorem pyStrip_idem (x : List Char) : pyStrip (pyStrip x) = pyStrip x :=
  pyStrip_eq_self _ (pyStrip_head_not_space x) (pyStrip_getLast_not_space x)

/-! Lemmas about joining and chunk strings. -/

theorem joinWith_cons (sep : List Char) (x : List Char) (g : List (List Char)) (hg : g ≠ []) :
    joinWith sep (x :: g) = x ++ sep ++ joinWith sep g := by
  cases g with
  | nil => exact absurd rfl hg
  | cons y rest => rfl

theorem joinWith_append (sep : List Char) (a b : List (List Char)) (ha : a ≠ []) (hb : b ≠ []) :
    joinWith sep (a ++ b) = joinWith sep a ++ sep ++ joinWith sep b := by
  induction a with
  | nil => exact absurd rfl ha
  | cons x a2 ih =>
    cases a2 with
    | nil =>
      rw [List.singleton_append, joinWith_cons sep x b hb]
      rfl
    | cons y a3 =>
      rw [List.cons_append, joinWith_cons sep x (y :: a3 ++ b) (by simp),
        joinWith_cons sep x (y :: a3) (by simp), ih (by simp)]
      simp

theorem rawOf_nil : rawOf [] = [] := rfl

theorem rawOf_cons (s : List Char) (g : List (List Char)) :
    rawOf (s :: g) = s ++ dotSp ++ rawOf g := by
  simp [rawOf]

theorem rawOf_single (s : List Char) : rawOf [s] = s ++ dotSp := by
  simp [rawOf]

theorem rawOf_append_single (g : List (List Char)) (s : List Char) :
    rawOf (g ++ [s]) = rawOf g ++ (s ++ dotSp) := by
  simp [rawOf]

theorem rawOf_eq_joinWith (g : List (List Char)) (hg : g ≠ []) :
    rawOf g = joinWith dotSp g ++ dotSp := by
  induction g with
  | nil => exact absurd rfl hg
  | cons s g2 ih =>
    cases g2 with
    | nil => simp [rawOf_single, joinWith]
    | cons y g3 =>
      rw [rawOf_cons, joinWith_cons dotSp s (y :: g3) (by simp), ih (by simp)]
      simp

theorem rawOf_eq_nil_iff (g : List (List Char)) : rawOf g = [] ↔ g = [] := by
  cases g with
  | nil => simp [rawOf_nil]
  | cons s g2 =>
    rw [rawOf_cons]
    constructor
    · intro h
      have : (s ++ dotSp ++ rawOf g2).length = 0 := by rw [h]; rfl
      simp [dotSp, toL] at this
    · intro h; exact absurd h (by simp)

theorem rawOf_length (g : List (List Char)) (hg : g ≠ []) :
    (rawOf g).length = (chunkOf g).length + 1 := by
  rw [rawOf_eq_joinWith g hg, chunkOf]
  simp [dotSp, toL]

theorem chunkOf_single (s : List Char) : chunkOf [s] = s ++ ['.'] := by
  simp [chunkOf, joinWith]

theorem joinWith_head_not_space (g : List (List Char)) (hg : g ≠ [])
    (hall : ∀ s ∈ g, s ≠ [] ∧ pyStrip s = s) :
    ∀ c, (joinWith dotSp g).head? = some c → isPySpace c = false := by
  intro c hc
  cases g with
  | nil => exact absurd rfl hg
  | cons s g2 =>
    obtain ⟨hs, hstrip⟩ := hall s (by simp)
    have hhead : (joinWith dotSp (s :: g2)).head? = s.head? := by
      cases g2 with
      | nil => rfl
      | cons y g3 =>
        rw [joinWith_cons dotSp s (y :: g3) (by simp)]
        cases s with
        | nil => exact absurd rfl hs
        | cons a t => simp
    rw [hhead] at hc
    rw [← hstrip] at hc
    exact pyStrip_head_not_space s c hc

theorem pyStrip_rawOf (g : List (List Char)) (hg : g ≠ [])
    (hall : ∀ s ∈ g, s ≠ [] ∧ pyStrip s = s) :
    pyStrip (rawOf g) = chunkOf g := by
  rw [rawOf_eq_joinWith g hg, chunkOf]
  have key : joinWith dotSp g ++ dotSp = (joinWith dotSp g ++ ['.']) ++ [' '] := by
    simp [dotSp, toL]
  rw [key]
  set J := joinWith dotSp g ++ ['.'] with hJ
  have hhead : ∀ c, (J ++ [' ']).head? = some c → isPySpace c = false := by
    intro c hc
    have hJne : J ≠ [] := by simp [hJ]
    cases hJcase : J with
    | nil => exact absurd hJcase hJne
    | cons a t =>
      rw [hJcase] at hc
      simp at hc
      rw [← hc]
      by_cases hj : (joinWith dotSp g) = []
      · have : a = '.' := by
          rw [hJcase, hj] at hJ
          simp at hJ
          exact hJ.1
        rw [this]; decide
      · have hha : (joinWith dotSp g).head? = some a := by
          cases hjj : joinWith dotSp g with
          | nil => exact absurd hjj hj
          | cons b u =>
            rw [hJcase, hjj] at hJ
            simp at hJ
            rw [hJ.1]
            rfl
        exact joinWith_head_not_space g hg hall a hha
  rw [pyStrip, lstripL_eq_self _ hhead]
  have : rstripL (J ++ [' ']) = rstripL J := by
    rw [rstripL, rstripL, List.reverse_append]
    rw [show ([' '] : List Char).reverse = [' '] from rfl]
    rw [List.singleton_append, List.dropWhile_cons, if_pos (by decide : isPySpace ' ' = true)]
  rw [this, rstripL_eq_self]
  intro c hc
  rw [hJ] at hc
  simp at hc
  rw [← hc]
  decide

/-! The structure of the chunker's output. -/

theorem filterSS_cons (s : List Char) (rest : List (List Char)) :
    filterSS (s :: rest) =
      if pyStrip s = [] then filterSS rest else pyStrip s :: filterSS rest := by
  by_cases h : pyStrip s = []
  · rw [if_pos h]
    simp [filterSS, h]
  · rw [if_neg h]
    simp [filterSS, h]

theorem chunksLoop_spec (maxLen : ℕ) (ss : List (List Char)) :
    ∀ (g : List (List Char)),
    (∀ s ∈ g, s ≠ [] ∧ pyStrip s = s) →
    (2 ≤ g.length → (rawOf g).length ≤ maxLen + 1) →
    ∃ groups : List (List (List Char)),
      (∀ chunks, LocalAnnotator.chunksLoop maxLen ss chunks (rawOf g) =
        chunks ++ groups.map chunkOf) ∧
      groups.flatten = g ++ filterSS ss ∧
      (∀ h ∈ groups, h ≠ [] ∧ (∀ s ∈ h, s ≠ [] ∧ pyStrip s = s) ∧
        (2 ≤ h.length → (chunkOf h).length ≤ maxLen)) := by
  induction ss with
  | nil =>
    intro g hel hbound
    by_cases hg : g = []
    · refine ⟨[], ?_, ?_, ?_⟩
      · intro chunks
        rw [hg, rawOf_nil]
        simp [LocalAnnotator.chunksLoop]
      · simp [hg, filterSS]
      · simp
    · refine ⟨[g], ?_, ?_, ?_⟩
      · intro chunks
        have hne : rawOf g ≠ [] := by
          rw [ne_eq, rawOf_eq_nil_iff]; exact hg
        simp only [LocalAnnotator.chunksLoop, if_neg hne]
        rw [pyStrip_rawOf g hg hel]
        simp
      · simp [filterSS]
      · intro h hh
        simp at hh
        subst hh
        refine ⟨hg, hel, ?_⟩
        intro h2
        have := hbound h2
        rw [rawOf_length _ hg] at this
        omega
  | cons s rest ih =>
    intro g hel hbound
    by_cases hs2 : pyStrip s = []
    · obtain ⟨groups, hloop, hflat, hgood⟩ := ih g hel hbound
      refine ⟨groups, ?_, ?_, hgood⟩
      · intro chunks
        simp only [LocalAnnotator.chunksLoop, if_pos hs2]
        exact hloop chunks
      · rw [hflat, filterSS_cons, if_pos hs2]
    · by_cases hfit : (rawOf g).length + (pyStrip s).length < maxLen
      · have hel2 : ∀ t ∈ g ++ [pyStrip s], t ≠ [] ∧ pyStrip t = t := by
          intro t ht
          rw [List.mem_append] at ht
          cases ht with
          | inl h => exact hel t h
          | inr h =>
            simp at h
            subst h
            exact ⟨hs2, pyStrip_idem s⟩
        have hbound2 : 2 ≤ (g ++ [pyStrip s]).length →
            (rawOf (g ++ [pyStrip s])).length ≤ maxLen + 1 := by
          intro _
          rw [rawOf_append_single]
          simp only [List.length_append]
          have hd : dotSp.length = 2 := rfl
          omega
        obtain ⟨groups, hloop, hflat, hgood⟩ := ih (g ++ [pyStrip s]) hel2 hbound2
        refine ⟨groups, ?_, ?_, hgood⟩
        · intro chunks
          simp only [LocalAnnotator.chunksLoop, if_neg hs2, if_pos hfit]
          have : rawOf g ++ pyStrip s ++ toL ". " = rawOf (g ++ [pyStrip s]) := by
            rw [rawOf_append_single]
            simp [dotSp]
          rw [this]
          exact hloop chunks
        · rw [hflat, filterSS_cons, if_neg hs2]
          simp
      · have hel1 : ∀ t ∈ [pyStrip s], t ≠ [] ∧ pyStrip t = t := by
          intro t ht
          simp at ht
          subst ht
          exact ⟨hs2, pyStrip_idem s⟩
        have hbound1 : 2 ≤ ([pyStrip s] : List (List Char)).length →
            (rawOf [pyStrip s]).length ≤ maxLen + 1 := by
          intro h2
          simp at h2
        obtain ⟨groups, hloop, hflat, hgood⟩ := ih [pyStrip s] hel1 hbound1
        by_cases hg : g = []
        · refine ⟨groups, ?_, ?_, hgood⟩
          · intro chunks
            simp only [LocalAnnotator.chunksLoop, if_neg hs2, if_neg hfit]
            rw [if_pos (by rw [hg, rawOf_nil])]
            have : pyStrip s ++ toL ". " = rawOf [pyStrip s] := by
              rw [rawOf_single]; rfl
            rw [this]
            exact hloop chunks
          · rw [hflat, filterSS_cons, if_neg hs2, hg]
            simp
        · refine ⟨g :: groups, ?_, ?_, ?_⟩
          · intro chunks
            simp only [LocalAnnotator.chunksLoop, if_neg hs2, if_neg hfit]
            rw [if_neg (show ¬ rawOf g = [] by rw [rawOf_eq_nil_iff]; exact hg)]
            have : pyStrip s ++ toL ". " = rawOf [pyStrip s] := by
              rw [rawOf_single]; rfl
            rw [this, pyStrip_rawOf g hg hel, hloop (chunks ++ [chunkOf g])]
            simp
          · rw [List.flatten_cons, hflat, filterSS_cons, if_neg hs2]
            simp
          · intro h hh
            rw [List.mem_cons] at hh
            cases hh with
            | inl h1 =>
              subst h1
              refine ⟨hg, hel, ?_⟩
              intro h2
              have := hbound h2
              rw [rawOf_length _ hg] at this
              omega
            | inr h1 => exact hgood h h1

theorem split_chunks_spec (text : List Char) (maxLen : ℕ) :
    (sentencesN text = [] ∧ LocalAnnotator.split_text_into_chunks text maxLen = [text]) ∨
    (∃ groups : List (List (List Char)), groups ≠ [] ∧
      groups.flatten = sentencesN text ∧
      LocalAnnotator.split_text_into_chunks text maxLen = groups.map chunkOf ∧
      (∀ h ∈ groups, h ≠ [] ∧ (∀ s ∈ h, s ≠ [] ∧ pyStrip s = s) ∧
        (2 ≤ h.length → (chunkOf h).length ≤ maxLen))) := by
  obtain ⟨groups, hloop, hflat, hgood⟩ :=
    chunksLoop_spec maxLen (splitSentences text) [] (by simp) (by simp)
  have hcs : LocalAnnotator.chunksLoop maxLen (splitSentences text) [] [] =
      groups.map chunkOf := by
    have := hloop []
    rw [rawOf_nil] at this
    simpa using this
  rw [List.nil_append] at hflat
  cases hgroups : groups with
  | nil =>
    left
    constructor
    · show filterSS (splitSentences text) = []
      rw [← hflat, hgroups]
      rfl
    · rw [LocalAnnotator.split_text_into_chunks]
      simp only [hcs, hgroups, List.map_nil]
      rfl
  | cons g0 gs =>
    right
    refine ⟨groups, by rw [hgroups]; simp, hflat, ?_, hgood⟩
    rw [LocalAnnotator.split_text_into_chunks]
    simp only [hcs]
    rw [if_neg]
    rw [hgroups]
    simp

theorem pyStrip_chunkOf (h : List (List Char)) (hne : h ≠ [])
    (hel : ∀ s ∈ h, s ≠ [] ∧ pyStrip s = s) :
    pyStrip (chunkOf h) = chunkOf h := by
  apply pyStrip_eq_self
  · intro c hc
    rw [chunkOf] at hc
    cases hjj : joinWith dotSp h with
    | nil =>
      rw [hjj] at hc
      simp at hc
      rw [← hc]
      decide
    | cons b u =>
      rw [hjj] at hc
      simp at hc
      exact joinWith_head_not_space h hne hel c (by rw [hjj, hc]; rfl)
  · intro c hc
    rw [chunkOf, List.getLast?_concat] at hc
    simp at hc
    rw [← hc]
    decide

theorem chunks_joinWith (groups : List (List (List Char))) (hne : groups ≠ [])
    (hall : ∀ h ∈ groups, h ≠ []) :
    joinWith [' '] (groups.map chunkOf) = joinWith dotSp groups.flatten ++ ['.'] := by
  induction groups with
  | nil => exact absurd rfl hne
  | cons h gs ih =>
    cases gs with
    | nil =>
      simp only [List.map_cons, List.map_nil, List.flatten_cons, List.flatten_nil,
        List.append_nil]
      rfl
    | cons g2 gs2 =>
      have hgs : (g2 :: gs2 : List (List (List Char))) ≠ [] := by simp
      have hall2 : ∀ x ∈ g2 :: gs2, x ≠ [] := fun x hx => hall x (List.mem_cons_of_mem h hx)
      have hg2 : g2 ≠ [] := hall2 g2 (by simp)
      have hflatne : g2 ++ gs2.flatten ≠ [] := by
        cases g2 with
        | nil => exact absurd rfl hg2
        | cons a t => simp
      rw [List.map_cons, joinWith_cons [' '] (chunkOf h) ((g2 :: gs2).map chunkOf) (by simp),
        ih hgs hall2]
      simp only [List.flatten_cons]
      rw [joinWith_append dotSp h (g2 ++ gs2.flatten) (hall h (by simp)) hflatne]
      rw [chunkOf]
      rw [show dotSp = ['.'] ++ [' '] from rfl]
      simp

/-- Claim C4, counterexample: at text `"abcde"` with `maxLen = 5` the single
chunk `"abcde."` has length 6 > 5, yet its only sentence `"abcde"` has length
5, which does not exceed `maxLen`; so it is not covered by the claim's
exception for "a single sentence that alone exceeds maxLen". -/
theorem c4_counterexample :
    ¬ (∀ c ∈ LocalAnnotator.split_text_into_chunks (toL "abcde") 5,
        c.length ≤ 5 ∨ ∃ s ∈ sentencesN (toL "abcde"), c = s ++ ['.'] ∧ 5 < s.length) := by
  decide

/-- Claim C4, amended: the chunks are exactly the groups of consecutive
stripped non-blank sentences, rejoined with `". "` and a final period (so a
sentence is never split internally); every chunk holding two or more
sentences has length at most `maxLen`; a chunk holding a single sentence `s`
is exactly `s ++ "."`, whose length `len(s) + 1` may exceed `maxLen` even
when `len(s)` does not.  When there are no non-blank sentences the output is
the singleton `[text]`. -/
theorem c4_chunk_length_structure :
    ∀ (text : List Char) (maxLen : ℕ),
      (sentencesN text = [] ∧ LocalAnnotator.split_text_into_chunks text maxLen = [text]) ∨
      (∃ groups : List (List (List Char)),
        groups.flatten = sentencesN text ∧
        LocalAnnotator.split_text_into_chunks text maxLen = groups.map chunkOf ∧
        (∀ h ∈ groups, h ≠ []) ∧
        (∀ h ∈ groups, 2 ≤ h.length → (chunkOf h).length ≤ maxLen) ∧
        (∀ h ∈ groups, ∀ s, h = [s] → chunkOf h = s ++ ['.'])) := by
  intro text maxLen
  rcases split_chunks_spec text maxLen with h | ⟨groups, _, hflat, heq, hgood⟩
  · left; exact h
  · right
    exact ⟨groups, hflat, heq, fun h hh => (hgood h hh).1,
      fun h hh h2 => (hgood h hh).2.2 h2,
      fun h _ s hs => by rw [hs, chunkOf_single]⟩

/-- Claim C10: `split_text_into_chunks` always returns a non-empty list, and
when sentence splitting yields no non-blank sentences it returns the
singleton list containing the original text. -/
theorem c10_chunks_nonempty :
    ∀ (text : List Char) (maxLen : ℕ),
      LocalAnnotator.split_text_into_chunks text maxLen ≠ [] ∧
      (sentencesN text = [] →
        LocalAnnotator.split_text_into_chunks text maxLen = [text]) := by
  intro text maxLen
  rcases split_chunks_spec text maxLen with ⟨hs, heq⟩ | ⟨groups, hne, hflat, heq, hgood⟩
  · exact ⟨by rw [heq]; simp, fun _ => heq⟩
  · constructor
    · rw [heq]
      cases groups with
      | nil => exact absurd rfl hne
      | cons g gs => simp
    · intro hs
      exfalso
      rw [← hflat] at hs
      cases groups with
      | nil => exact absurd rfl hne
      | cons g gs =>
        rw [List.flatten_cons] at hs
        have hg := (hgood g (by simp)).1
        rw [List.append_eq_nil] at hs
        exact hg hs.1

/-- Claim C3, counterexample: for `t = "Hi! Bye?"` and `maxLen = 100` (at
least the longest sentence length), the rejoined chunks read `"Hi. Bye."`:
the terminators `!` and `?` have been rewritten to periods, so the rejoin is
not whitespace-normalization-equal to `t`. -/
theorem c3_counterexample :
    (∀ s ∈ sentencesN (toL "Hi! Bye?"), s.length ≤ 100) ∧
    normWS (joinWith [' ']
        ((LocalAnnotator.split_text_into_chunks (toL "Hi! Bye?") 100).map pyStrip)) ≠
      normWS (toL "Hi! Bye?") := by
  decide

/-- Claim C3, amended: for every text and every `maxLen`, rejoining the
trimmed chunks with single spaces yields the text's stripped non-blank
sentences joined with `". "` and closed by a period (every terminator run
becomes a single period and inter-sentence whitespace a single space); when
the text has no non-blank sentences it yields the stripped text itself.
Reconstruction of `t` up to whitespace normalization therefore holds only
when every sentence terminator of `t` is a single period. -/
theorem c3_rejoin_normal_form :
    ∀ (text : List Char) (maxLen : ℕ),
      joinWith [' '] ((LocalAnnotator.split_text_into_chunks text maxLen).map pyStrip) =
        if sentencesN text = [] then pyStrip text
        else joinWith dotSp (sentencesN text) ++ ['.'] := by
  intro text maxLen
  rcases split_chunks_spec text maxLen with ⟨hs, heq⟩ | ⟨groups, hne, hflat, heq, hgood⟩
  · rw [heq, if_pos hs]
    simp [joinWith]
  · have hsne : sentencesN text ≠ [] := by
      rw [← hflat]
      cases groups with
      | nil => exact absurd rfl hne
      | cons g gs =>
        rw [List.flatten_cons]
        have hg := (hgood g (by simp)).1
        cases g with
        | nil => exact absurd rfl hg
        | cons a t => simp
    rw [heq, if_neg hsne, ← hflat]
    have hmap : (groups.map chunkOf).map pyStrip = groups.map chunkOf := by
      rw [List.map_map]
      apply List.map_congr_left
      intro h hh
      exact pyStrip_chunkOf h (hgood h hh).1 (hgood h hh).2.1
    rw [hmap, chunks_joinWith groups hne (fun h hh => (hgood h hh).1)]

/-! Determinism analysis of the sampled rule loop (claim C1). -/

theorem ruleFoldl_det_high (i : ℚ) (hi : 1 ≤ i) (rnd rnd' : ℕ → ℚ)
    (hr : ∀ n, rnd n < 1) (hr' : ∀ n, rnd' n < 1) :
    ∀ (rules : List LocalAnnotator.EmotionRule) (acc : List Char) (k k' : ℕ),
      (rules.foldl (LocalAnnotator.ruleStep i rnd) (acc, k)).1 =
        (rules.foldl (LocalAnnotator.ruleStep i rnd') (acc, k')).1 := by
  intro rules
  induction rules with
  | nil => intros; rfl
  | cons r rs ih =>
    intro acc k k'
    simp only [List.foldl_cons]
    by_cases hm : r.minIntensity ≤ i
    · have hrk : rnd k < i := lt_of_lt_of_le (hr k) hi
      have hrk' : rnd' k' < i := lt_of_lt_of_le (hr' k') hi
      have e1 : LocalAnnotator.ruleStep i rnd (acc, k) r =
          (subWordAlt r.words r.tag acc, k + 1) := by
        simp [LocalAnnotator.ruleStep, hm, hrk]
      have e2 : LocalAnnotator.ruleStep i rnd' (acc, k') r =
          (subWordAlt r.words r.tag acc, k' + 1) := by
        simp [LocalAnnotator.ruleStep, hm, hrk']
      rw [e1, e2]
      exact ih _ _ _
    · have e1 : LocalAnnotator.ruleStep i rnd (acc, k) r = (acc, k) := by
        simp [LocalAnnotator.ruleStep, hm]
      have e2 : LocalAnnotator.ruleStep i rnd' (acc, k') r = (acc, k') := by
        simp [LocalAnnotator.ruleStep, hm]
      rw [e1, e2]
      exact ih _ _ _

theorem ruleFoldl_det_low (i : ℚ) (hi : i < mkRat 1 10) (rnd rnd' : ℕ → ℚ) :
    ∀ (rules : List LocalAnnotator.EmotionRule),
      (∀ r ∈ rules, mkRat 1 10 ≤ r.minIntensity) →
      ∀ (acc : List Char) (k k' : ℕ),
      (rules.foldl (LocalAnnotator.ruleStep i rnd) (acc, k)).1 =
        (rules.foldl (LocalAnnotator.ruleStep i rnd') (acc, k')).1 := by
  intro rules
  induction rules with
  | nil => intros; rfl
  | cons r rs ih =>
    intro hmins acc k k'
    simp only [List.foldl_cons]
    have hm : ¬ r.minIntensity ≤ i := by
      intro hle
      have h10 := hmins r (by simp)
      exact absurd (lt_of_le_of_lt (le_trans h10 hle) hi) (lt_irrefl _)
    have e1 : LocalAnnotator.ruleStep i rnd (acc, k) r = (acc, k) := by
      simp [LocalAnnotator.ruleStep, hm]
    have e2 : LocalAnnotator.ruleStep i rnd' (acc, k') r = (acc, k') := by
      simp [LocalAnnotator.ruleStep, hm]
    rw [e1, e2]
    exact ih (fun x hx => hmins x (List.mem_cons_of_mem r hx)) _ _ _

/-- Claim C1, counterexample: `LocalAnnotator.annotate_with_rules` is not
deterministic in `(text, intensity)`.  At `text = "wow"` and
`intensity = 0.5` (which lies in `[0, 1]`), the all-zero draw stream fires
the `wow → (gasps)` rule while the constant-0.9 stream fires nothing; both
streams take values in `[0, 1)` as `random.random()` does. -/
theorem c1_counterexample :
    (0 : ℚ) ≤ mkRat 1 2 ∧ mkRat 1 2 ≤ 1 ∧
    (0 : ℚ) ≤ 0 ∧ (0 : ℚ) < 1 ∧ (0 : ℚ) ≤ mkRat 9 10 ∧ mkRat 9 10 < 1 ∧
    LocalAnnotator.annotate_with_rules (toL "wow") (mkRat 1 2) (fun _ => 0) ≠
      LocalAnnotator.annotate_with_rules (toL "wow") (mkRat 1 2) (fun _ => mkRat 9 10) := by
  decide

/-- Claim C1, amended: the backend's `add_rule_based_annotations` is a pure
function of `(text, intensity)` alone, hence deterministic; the local
annotator's `annotate_with_rules`, by contrast, gates each eligible rule on a
fresh random draw (applied iff draw < intensity) and is deterministic only
when no rule is eligible (`intensity < 0.1`) or every draw passes
(`intensity ≥ 1`), for draw streams in `[0, 1)`. -/
theorem c1_rule_annotation_determinism :
    ∀ (t : List Char) (i : ℚ) (rnd rnd' : ℕ → ℚ),
      (∀ n, 0 ≤ rnd n ∧ rnd n < 1) → (∀ n, 0 ≤ rnd' n ∧ rnd' n < 1) →
      (i < mkRat 1 10 ∨ 1 ≤ i) →
      LocalAnnotator.annotate_with_rules t i rnd =
        LocalAnnotator.annotate_with_rules t i rnd' := by
  intro t i rnd rnd' h1 h2 hcase
  have key : (LocalAnnotator.emotion_rules.foldl (LocalAnnotator.ruleStep i rnd) (t, 0)).1 =
      (LocalAnnotator.emotion_rules.foldl (LocalAnnotator.ruleStep i rnd') (t, 0)).1 := by
    cases hcase with
    | inl h =>
      exact ruleFoldl_det_low i h rnd rnd' LocalAnnotator.emotion_rules (by decide) t 0 0
    | inr h =>
      exact ruleFoldl_det_high i h rnd rnd' (fun n => (h1 n).2) (fun n => (h2 n).2)
        LocalAnnotator.emotion_rules t 0 0
  simp only [LocalAnnotator.annotate_with_rules]
  rw [key]

/-- Claim C1, witness: the amended determinism theorem applied at
`text = "wow"`, `intensity = 1`, draw streams constantly 0 and constantly
1/2. -/
theorem c1_determinism_witness :
    LocalAnnotator.annotate_with_rules (toL "wow") 1 (fun _ => 0) =
      LocalAnnotator.annotate_with_rules (toL "wow") 1 (fun _ => mkRat 1 2) :=
  c1_rule_annotation_determinism (toL "wow") 1 (fun _ => 0) (fun _ => mkRat 1 2)
    (fun _ => ⟨le_refl 0, show (0 : ℚ) < 1 by decide⟩)
    (fun _ => ⟨show (0 : ℚ) ≤ mkRat 1 2 by decide, show mkRat 1 2 < 1 by decide⟩)
    (Or.inr le_rfl)

/-! Length lemmas feeding the acceptance-threshold analysis (claim C2). -/

theorem lstripL_length_le (s : List Char) : (lstripL s).length ≤ s.length := by
  obtain ⟨w, hw, _⟩ := lstripL_decomp s
  conv_rhs => rw [hw]
  rw [List.length_append]
  omega

theorem rstripL_length_le (s : List Char) : (rstripL s).length ≤ s.length := by
  obtain ⟨w, hw, _⟩ := rstripL_decomp s
  conv_rhs => rw [hw]
  rw [List.length_append]
  omega

theorem pyStrip_length_le (s : List Char) : (pyStrip s).length ≤ s.length :=
  le_trans (rstripL_length_le (lstripL s)) (lstripL_length_le s)

theorem leadsWith_length_le (p s : List Char) (h : leadsWith p s = true) :
    p.length ≤ s.length := by
  induction p generalizing s with
  | nil => simp
  | cons a p2 ih =>
    cases s with
    | nil => simp [leadsWith] at h
    | cons c s2 =>
      rw [leadsWith, Bool.and_eq_true] at h
      have := ih s2 h.2
      simp
      omega

theorem containsSub_length_le (p s : List Char) (h : containsSub p s = true) :
    p.length ≤ s.length := by
  induction s with
  | nil =>
    rw [containsSub, List.isEmpty_iff] at h
    simp [h]
  | cons c s2 ih =>
    rw [containsSub, Bool.or_eq_true] at h
    cases h with
    | inl h => exact leadsWith_length_le _ _ h
    | inr h =>
      have := ih h
      simp
      omega

theorem afterFirstSub_length_le (pat s r : List Char) (h : afterFirstSub pat s = some r) :
    r.length ≤ s.length := by
  induction s with
  | nil =>
    rw [afterFirstSub] at h
    by_cases hp : pat.isEmpty
    · rw [if_pos hp] at h
      simp at h
      simp [← h]
    · rw [if_neg hp] at h
      exact absurd h (by simp)
  | cons c s2 ih =>
    rw [afterFirstSub] at h
    by_cases hl : leadsWith pat (c :: s2) = true
    · rw [if_pos hl] at h
      simp at h
      rw [← h]
      simp
    · rw [if_neg hl] at h
      exact le_trans (ih h) (by simp)

theorem afterLastSubFuel_length_le (fuel : ℕ) (pat : List Char) :
    ∀ s, (afterLastSubFuel fuel pat s).length ≤ s.length := by
  induction fuel with
  | zero => intro s; rw [afterLastSubFuel]
  | succ f ih =>
    intro s
    rw [afterLastSubFuel]
    cases hfs : afterFirstSub pat s with
    | none => exact le_refl _
    | some r => exact le_trans (ih r) (afterFirstSub_length_le pat s r hfs)

theorem afterLastSub_length_le (pat s : List Char) :
    (afterLastSub pat s).length ≤ s.length :=
  afterLastSubFuel_length_le s.length pat s

/-- Claim C2: in both revisions of `add_emotional_annotations`, a delivered
remote annotation body `a` with `len(a) < 0.8 * len(t)` (stated exactly as
`5 * len(a) < 4 * len(t)`) is never returned: every cleaning step
(strip, prompt-echo removal, quote removal) only shortens the body, so the
acceptance checks fail and the rule-based annotation of `t` is returned
instead.  This also covers unavailable backends and non-200 statuses. -/
theorem c2_short_remote_output_rejected :
    ∀ (t a : List Char) (i : ℚ) (avail : Bool) (st : ℕ),
      5 * a.length < 4 * t.length →
      (BackendV1.add_emotional_annotations t i avail (some (st, a))).1 =
          Backend.add_rule_based_annotations t i ∧
      (BackendV2.add_emotional_annotations t i avail (some (st, a))).1 =
          Backend.add_rule_based_annotations t i := by
  intro t a i avail st hshort
  cases avail with
  | false =>
    constructor
    · simp [BackendV1.add_emotional_annotations]
    · simp [BackendV2.add_emotional_annotations]
  | true =>
    by_cases hst : st = 200
    · constructor
      · simp only [BackendV1.add_emotional_annotations, Bool.not_true, Bool.false_eq_true,
          if_false, if_pos hst]
        set e1 := pyStrip a with he1
        have he1len : e1.length ≤ a.length := pyStrip_length_le a
        by_cases hc : containsSub (toL "Enhanced text:") e1 = true
        · rw [if_pos hc]
          set e2 := pyStrip (afterLastSub (toL "Enhanced text:") e1) with he2
          have he2len : e2.length ≤ a.length :=
            le_trans (le_trans (pyStrip_length_le _) (afterLastSub_length_le _ _)) he1len
          rw [if_neg]
          intro hacc
          have := hacc.2
          omega
        · rw [if_neg hc, if_neg]
          intro hacc
          have := hacc.2
          omega
      · simp only [BackendV2.add_emotional_annotations, Bool.not_true, Bool.false_eq_true,
          if_false, if_pos hst]
        set e1 := pyStrip a with he1
        have he1len : e1.length ≤ a.length := pyStrip_length_le a
        set e2 := pyStrip (e1.filter (fun c => c != '\"')) with he2
        have he2len : e2.length ≤ a.length := by
          have hf : (e1.filter (fun c => c != '\"')).length ≤ e1.length :=
            List.length_filter_le _ _
          exact le_trans (le_trans (pyStrip_length_le _) hf) he1len
        have hnotpre : ¬ leadsWith t e2 = true := by
          intro hl
          have := leadsWith_length_le t e2 hl
          omega
        rw [if_neg hnotpre, if_neg]
        intro hacc
        have hcon := hacc.1
        have := containsSub_length_le (lowerL t) (lowerL e2) hcon
        simp only [lowerL, List.length_map] at this
        omega
    · constructor
      · simp [BackendV1.add_emotional_annotations, hst]
      · simp [BackendV2.add_emotional_annotations, hst]

/-- Claim C2, witness: the theorem applied at `t = "Hello world"` (length 11)
and delivered body `a = "short"` (length 5 < 8.8): both revisions return the
rule-based annotation. -/
theorem c2_witness :
    (BackendV1.add_emotional_annotations (toL "Hello world") (mkRat 1 2) true
        (some (200, toL "short"))).1 =
      Backend.add_rule_based_annotations (toL "Hello world") (mkRat 1 2) ∧
    (BackendV2.add_emotional_annotations (toL "Hello world") (mkRat 1 2) true
        (some (200, toL "short"))).1 =
      Backend.add_rule_based_annotations (toL "Hello world") (mkRat 1 2) :=
  c2_short_remote_output_rejected (toL "Hello world") (toL "short") (mkRat 1 2) true 200
    (by decide)

/-- Claim C5 (code bug): with `addPauses` true and intensity 0.8, the
rule-based emotion stage of `src/backend.py` has already inserted
`(pauses)` after `"Hi."`, and `add_natural_pauses` then inserts a second
marker at the same boundary, producing `"Hi. (pauses) (pauses) There"`.
The local annotator's `add_natural_pauses`, whose sentence rule carries the
`(?!\()` guard ("if not already added"), leaves the same intermediate text
unchanged — matching the spec's no-double-insert requirement. -/
theorem c5_double_insertion :
    (BackendV1.annotate_text false none (toL "Hi. There")
        ⟨some true, some (mkRat 8 10), some true⟩).1 =
      Except.ok (toL "Hi. (pauses) (pauses) There") ∧
    LocalAnnotator.add_natural_pauses (toL "Hi. (pauses) There") =
      toL "Hi. (pauses) There" := by
  decide

/-- Claim C6: on empty input text, both endpoints of `src/backend/backend.py`
raise the empty-text validation error immediately (HTTP 400 "Text is
required", re-wrapped to a 500 by each endpoint's blanket handler) and invoke
no annotation backend and no TTS backend, for every backend availability,
every remote-response oracle, every TTS oracle and every settings value. -/
theorem c6_empty_text_validation :
    ∀ (α : Type) (avail : Bool) (remote : Backend.RemoteResp) (s : Backend.PySettings)
      (tts : List Char → Except (ℕ × List Char) α),
      BackendV2.annotate_text avail remote [] s =
        (Except.error
          (500, toL "Failed to annotate text: " ++ Backend.pyStr (400, toL "Text is required")),
          false) ∧
      BackendV2.generate_audio avail remote tts [] s =
        (Except.error
          (500, toL "Failed to generate audio: " ++ Backend.pyStr (400, toL "Text is required")),
          false, false) := by
  intro α avail remote s tts
  exact ⟨rfl, rfl⟩

/-- Claim C8: the instrumentation wrapper installed on the model's `forward`
method is restored after the generation call for every outcome of
`generate` — success or raised exception — because the restoration runs in a
`finally` block; and the instrumentation does not alter the returned
result. -/
theorem c8_forward_restored :
    ∀ (F E α : Type) (instrument : F → F)
      (generate : BackendV2.DiaModelState F → Except E α × BackendV2.DiaModelState F)
      (m : BackendV2.DiaModelState F),
      (BackendV2.patchForwardAndGenerate instrument generate m).2.forward = m.forward ∧
      (BackendV2.patchForwardAndGenerate instrument generate m).1 =
        (generate ⟨instrument m.forward⟩).1 := by
  intro F E α instr gen m
  exact ⟨rfl, rfl⟩

/-- Claim C9: the token budget of `generate_tts_audio` equals
`clamp(charCount * 25, 1536, 3072)` computed over the character count of the
preprocessed text (the code's `max(1536, min(charCount * 25, 3072))`
nesting equals the clamp because 1536 ≤ 3072). -/
theorem c9_token_budget :
    ∀ text : List Char,
      BackendV2.max_tokens_for text =
        min 3072 (max 1536 (25 * (BackendV2.preprocess_text_for_dia text).length)) := by
  intro text
  simp only [BackendV2.max_tokens_for]
  omega

/-! Prefix/suffix characterizations and newline-replacement facts (claim C7). -/

theorem leadsWith_iff (p s : List Char) : leadsWith p s = true ↔ ∃ r, s = p ++ r := by
  induction p generalizing s with
  | nil => simp [leadsWith]
  | cons a p2 ih =>
    cases s with
    | nil =>
      simp [leadsWith]
    | cons c s2 =>
      rw [leadsWith, Bool.and_eq_true, beq_iff_eq, ih s2]
      constructor
      · rintro ⟨hac, r, hr⟩
        exact ⟨r, by rw [hac, hr]; rfl⟩
      · rintro ⟨r, hr⟩
        simp at hr
        exact ⟨hr.1.symm, r, hr.2⟩

theorem trailsWith_iff (p s : List Char) : trailsWith p s = true ↔ ∃ r, s = r ++ p := by
  rw [trailsWith, leadsWith_iff]
  constructor
  · rintro ⟨r, hr⟩
    refine ⟨r.reverse, ?_⟩
    have := congrArg List.reverse hr
    simpa using this
  · rintro ⟨r, hr⟩
    exact ⟨r.reverse, by rw [hr]; simp⟩

theorem lstripL_append (a b : List Char) :
    lstripL (a ++ b) = if lstripL a = [] then lstripL b else lstripL a ++ b := by
  induction a with
  | nil => simp [lstripL]
  | cons c a2 ih =>
    by_cases hc : isPySpace c
    · have h1 : lstripL (c :: a2) = lstripL a2 := by
        rw [lstripL, List.dropWhile_cons, if_pos hc]; rfl
      have h2 : lstripL ((c :: a2) ++ b) = lstripL (a2 ++ b) := by
        rw [List.cons_append, lstripL, List.dropWhile_cons, if_pos hc]; rfl
      rw [h2, ih, h1]
    · have h1 : lstripL (c :: a2) = c :: a2 := by
        rw [lstripL, List.dropWhile_cons, if_neg hc]
      have h2 : lstripL ((c :: a2) ++ b) = c :: (a2 ++ b) := by
        rw [List.cons_append, lstripL, List.dropWhile_cons, if_neg hc]
      rw [h2, h1, if_neg (by simp)]
      rfl

theorem replDD_nil : replDD [] = [] := rfl

theorem replDD_one (c : Char) : replDD [c] = [c] := rfl

theorem replDD_cons2 (c1 c2 : Char) (x2 : List Char) :
    replDD (c1 :: c2 :: x2) =
      if c1 == '\n' && c2 == '\n' then ' ' :: replDD x2 else c1 :: replDD (c2 :: x2) := rfl

theorem replDD_append : ∀ (x b : List Char),
    (¬ (x.getLast? = some '\n' ∧ b.head? = some '\n')) →
    replDD (x ++ b) = replDD x ++ replDD b
  | [], b, _ => by simp [replDD_nil]
  | [c], b, h => by
    cases b with
    | nil => simp [replDD_one, replDD_nil]
    | cons d bs =>
      have hcd : ¬ ((c == '\n' && d == '\n') = true) := by
        simp only [Bool.and_eq_true, beq_iff_eq]
        intro hb
        exact h ⟨by simp [hb.1], by simp [hb.2]⟩
      rw [List.singleton_append, replDD_cons2, if_neg hcd, replDD_one, List.singleton_append]
  | c1 :: c2 :: x2, b, h => by
    by_cases hnn : (c1 == '\n' && c2 == '\n') = true
    · have hcond : ¬ (x2.getLast? = some '\n' ∧ b.head? = some '\n') := by
        cases x2 with
        | nil => simp
        | cons e x3 =>
          intro hcon
          apply h
          rw [List.getLast?_cons_cons, List.getLast?_cons_cons]
          exact hcon
      rw [List.cons_append, List.cons_append, replDD_cons2, if_pos hnn,
        replDD_cons2, if_pos hnn, replDD_append x2 b hcond]
      rfl
    · have hcond : ¬ ((c2 :: x2).getLast? = some '\n' ∧ b.head? = some '\n') := by
        intro hcon
        apply h
        rw [List.getLast?_cons_cons]
        exact hcon
      rw [List.cons_append, List.cons_append, replDD_cons2, if_neg hnn,
        replDD_cons2, if_neg hnn]
      rw [show c2 :: (x2 ++ b) = (c2 :: x2) ++ b from rfl,
        replDD_append (c2 :: x2) b hcond]
      rfl
termination_by x _ _ => x.length

theorem replDD_all_space : ∀ (x : List Char),
    (∀ c ∈ x, isPySpace c = true) → ∀ c ∈ replDD x, isPySpace c = true
  | [], _, c, hc => by simp [replDD_nil] at hc
  | [d], h, c, hc => by
    rw [replDD_one] at hc
    simp at hc
    exact hc ▸ h d (by simp)
  | c1 :: c2 :: x2, h, c, hc => by
    rw [replDD_cons2] at hc
    by_cases hnn : (c1 == '\n' && c2 == '\n') = true
    · rw [if_pos hnn] at hc
      rcases List.mem_cons.mp hc with h1 | h1
      · rw [h1]; decide
      · exact replDD_all_space x2 (fun d hd => h d (by simp [hd])) c h1
    · rw [if_neg hnn] at hc
      rcases List.mem_cons.mp hc with h1 | h1
      · exact h1 ▸ h c1 (by simp)
      · exact replDD_all_space (c2 :: x2)
          (fun d hd => h d (List.mem_cons_of_mem c1 hd)) c h1
termination_by x _ _ _ => x.length

theorem replNL_all_space (x : List Char) (h : ∀ c ∈ x, isPySpace c = true) :
    ∀ c ∈ replNL x, isPySpace c = true := by
  intro c hc
  rw [replNL, List.mem_map] at hc
  obtain ⟨d, hd, he⟩ := hc
  by_cases hdn : d == '\n'
  · rw [if_pos hdn] at he
    rw [← he]
    decide
  · rw [if_neg hdn] at he
    exact he ▸ h d hd

theorem replNL_append (a b : List Char) : replNL (a ++ b) = replNL a ++ replNL b := by
  simp [replNL]

theorem lstripL_append_allspace (w b : List Char) (hw : ∀ c ∈ w, isPySpace c = true) :
    lstripL (w ++ b) = lstripL b := by
  rw [lstripL_append]
  rw [if_pos]
  rw [lstripL, List.dropWhile_eq_nil_iff]
  intro c hc
  simp [hw c hc]

theorem head?_append_of_ne_nil {α : Type} (a b : List α) (ha : a ≠ []) :
    (a ++ b).head? = a.head? := by
  cases a with
  | nil => exact absurd rfl ha
  | cons c t => rfl

theorem getLast?_append_right {α : Type} (a b : List α) (hb : b ≠ []) :
    (a ++ b).getLast? = b.getLast? := by
  rw [← List.head?_reverse, ← List.head?_reverse b, List.reverse_append]
  exact head?_append_of_ne_nil b.reverse a.reverse (by simpa using hb)

theorem rstripL_preserves_leadsWith (p s : List Char)
    (hlast : ∀ c, p.getLast? = some c → isPySpace c = false)
    (h : leadsWith p s = true) : leadsWith p (rstripL s) = true := by
  obtain ⟨r, hr⟩ := (leadsWith_iff p s).mp h
  subst hr
  have hpd : List.dropWhile isPySpace p.reverse = p.reverse := by
    have := lstripL_eq_self p.reverse (by
      intro c hc
      rw [List.head?_reverse] at hc
      exact hlast c hc)
    exact this
  rw [rstripL, List.reverse_append, List.dropWhile_append]
  by_cases hre : (List.dropWhile isPySpace r.reverse).isEmpty = true
  · rw [if_pos hre, hpd, List.reverse_reverse]
    exact (leadsWith_iff p p).mpr ⟨[], by simp⟩
  · rw [if_neg hre, List.reverse_append, List.reverse_reverse]
    exact (leadsWith_iff p _).mpr ⟨_, rfl⟩

theorem start_preserved (m text : List Char)
    (hm : m = toL "[S1]" ∨ m = toL "[S2]")
    (h : leadsWith m (pyStrip text) = true) :
    leadsWith m (lstripL (replNL (replDD text))) = true := by
  have hmne : m ≠ [] := by
    rcases hm with h1 | h1 <;> (subst h1; intro hx; exact absurd hx (by decide))
  have hmhead : m.head? = some '[' := by
    rcases hm with h1 | h1 <;> (subst h1; decide)
  have hmlast : m.getLast? = some ']' := by
    rcases hm with h1 | h1 <;> (subst h1; decide)
  have hmdd : replDD m = m := by
    rcases hm with h1 | h1 <;> (subst h1; decide)
  have hmnl : replNL m = m := by
    rcases hm with h1 | h1 <;> (subst h1; decide)
  obtain ⟨r, hr⟩ := (leadsWith_iff m (pyStrip text)).mp h
  obtain ⟨w1, hw1, _⟩ := rstripL_decomp (lstripL text)
  rw [show rstripL (lstripL text) = pyStrip text from rfl, hr] at hw1
  obtain ⟨w0, hw0, hw0s⟩ := lstripL_decomp text
  rw [hw1] at hw0
  rw [List.append_assoc] at hw0
  rw [hw0]
  have hd1 : replDD (w0 ++ (m ++ (r ++ w1))) = replDD w0 ++ replDD (m ++ (r ++ w1)) := by
    apply replDD_append
    intro hcon
    rw [head?_append_of_ne_nil m _ hmne, hmhead] at hcon
    exact absurd hcon.2 (by decide)
  have hd2 : replDD (m ++ (r ++ w1)) = m ++ replDD (r ++ w1) := by
    rw [replDD_append m _ (by
      intro hcon
      rw [hmlast] at hcon
      exact absurd hcon.1 (by decide)), hmdd]
  rw [hd1, hd2, replNL_append, replNL_append, hmnl]
  rw [lstripL_append_allspace _ _
    (replNL_all_space _ (replDD_all_space w0 hw0s))]
  have hfin : lstripL (m ++ replNL (replDD (r ++ w1))) = m ++ replNL (replDD (r ++ w1)) := by
    apply lstripL_eq_self
    intro c hc
    rw [head?_append_of_ne_nil m _ hmne, hmhead] at hc
    simp at hc
    rw [← hc]
    decide
  rw [hfin]
  exact (leadsWith_iff m _).mpr ⟨_, rfl⟩

theorem leadsWith_extend (m s r : List Char) (h : leadsWith m s = true) :
    leadsWith m (s ++ r) = true := by
  obtain ⟨u, hu⟩ := (leadsWith_iff m s).mp h
  exact (leadsWith_iff m _).mpr ⟨u ++ r, by rw [hu]; simp⟩

theorem leadsWith_ne_nil (m s : List Char) (hm : m ≠ []) (h : leadsWith m s = true) :
    s ≠ [] := by
  obtain ⟨u, hu⟩ := (leadsWith_iff m s).mp h
  rw [hu]
  cases m with
  | nil => exact absurd rfl hm
  | cons a t => simp

theorem bracket_end_part (t2 : List Char)
    (hstart : ∃ m, (m = toL "[S1]" ∨ m = toL "[S2]") ∧ leadsWith m (lstripL t2) = true) :
    ∀ out : List Char,
      out = (if (!(trailsWith (toL "[S1]") (pyStrip t2)) &&
                 !(trailsWith (toL "[S2]") (pyStrip t2))) = true then
               t2 ++ [' '] ++ (if containsSub (toL "[S2]") t2 = true then toL "[S2]" else toL "[S1]")
             else t2) →
      ((leadsWith (toL "[S1]") (pyStrip out) = true ∨
        leadsWith (toL "[S2]") (pyStrip out) = true) ∧
       (trailsWith (toL "[S1]") (pyStrip out) = true ∨
        trailsWith (toL "[S2]") (pyStrip out) = true)) := by
  obtain ⟨m, hm, hlead⟩ := hstart
  have hmne : m ≠ [] := by
    rcases hm with h1 | h1 <;> (subst h1; intro hx; exact absurd hx (by decide))
  have hmlast : ∀ c, m.getLast? = some c → isPySpace c = false := by
    rcases hm with h1 | h1
    · subst h1
      intro c hc
      rw [show (toL "[S1]").getLast? = some ']' from by decide] at hc
      injection hc with hc2
      rw [← hc2]
      decide
    · subst h1
      intro c hc
      rw [show (toL "[S2]").getLast? = some ']' from by decide] at hc
      injection hc with hc2
      rw [← hc2]
      decide
  intro out hout
  by_cases hend : (!(trailsWith (toL "[S1]") (pyStrip t2)) &&
      !(trailsWith (toL "[S2]") (pyStrip t2))) = true
  · rw [if_pos hend] at hout
    set m2 := if containsSub (toL "[S2]") t2 = true then toL "[S2]" else toL "[S1]" with hm2def
    have hm2 : m2 = toL "[S1]" ∨ m2 = toL "[S2]" := by
      by_cases hc : containsSub (toL "[S2]") t2 = true
      · right; rw [hm2def, if_pos hc]
      · left; rw [hm2def, if_neg hc]
    have hm2ne : m2 ≠ [] := by
      rcases hm2 with h1 | h1 <;> (rw [h1]; intro hx; exact absurd hx (by decide))
    have hm2last : (([' '] ++ m2) : List Char).getLast? = some ']' := by
      rw [getLast?_append_right _ _ hm2ne]
      rcases hm2 with h1 | h1 <;> (rw [h1]; decide)
    have hlne : lstripL t2 ≠ [] := leadsWith_ne_nil m _ hmne hlead
    have hlout : lstripL out = lstripL t2 ++ ([' '] ++ m2) := by
      rw [hout, List.append_assoc, lstripL_append, if_neg hlne]
    have hrout : rstripL (lstripL out) = lstripL out := by
      apply rstripL_eq_self
      intro c hc
      rw [hlout, getLast?_append_right _ _ (by simp), hm2last] at hc
      simp at hc
      rw [← hc]
      decide
    have hstartout : leadsWith m (pyStrip out) = true := by
      rw [pyStrip, hrout, hlout]
      exact leadsWith_extend m _ _ hlead
    have hendout : trailsWith m2 (pyStrip out) = true := by
      rw [pyStrip, hrout, hlout]
      exact (trailsWith_iff m2 _).mpr ⟨lstripL t2 ++ [' '], by simp⟩
    constructor
    · rcases hm with h1 | h1
      · left; rw [← h1]; exact hstartout
      · right; rw [← h1]; exact hstartout
    · rcases hm2 with h1 | h1
      · left; rw [← h1]; exact hendout
      · right; rw [← h1]; exact hendout
  · rw [if_neg hend] at hout
    rw [hout]
    have hstartout : leadsWith m (pyStrip t2) = true := by
      rw [pyStrip]
      exact rstripL_preserves_leadsWith m _ hmlast hlead
    have hendor : trailsWith (toL "[S1]") (pyStrip t2) = true ∨
        trailsWith (toL "[S2]") (pyStrip t2) = true := by
      rw [Bool.and_eq_true, not_and_or, Bool.not_eq_true', Bool.not_eq_true',
        Bool.not_eq_false, Bool.not_eq_false] at hend
      exact hend
    constructor
    · rcases hm with h1 | h1
      · left; rw [← h1]; exact hstartout
      · right; rw [← h1]; exact hstartout
    · exact hendor

/-- For every input text, the output of the first revision's
`preprocess_text_for_dia` (src/backend.py) begins — after discarding leading
whitespace — with an explicit speaker marker (`[S1]` or `[S2]`) and ends —
after discarding trailing whitespace — with one. -/
theorem v1_markers_bracket :
    ∀ text : List Char,
      ((leadsWith (toL "[S1]") (pyStrip (BackendV1.preprocess_text_for_dia text)) = true ∨
        leadsWith (toL "[S2]") (pyStrip (BackendV1.preprocess_text_for_dia text)) = true) ∧
       (trailsWith (toL "[S1]") (pyStrip (BackendV1.preprocess_text_for_dia text)) = true ∨
        trailsWith (toL "[S2]") (pyStrip (BackendV1.preprocess_text_for_dia text)) = true)) := by
  intro text
  set t1v := if (!(leadsWith (toL "[S1]") (pyStrip text)) &&
      !(leadsWith (toL "[S2]") (pyStrip text))) = true then toL "[S1] " ++ text else text
    with ht1def
  have hstart : ∃ m, (m = toL "[S1]" ∨ m = toL "[S2]") ∧
      leadsWith m (lstripL (replNL (replDD t1v))) = true := by
    by_cases hpre : (!(leadsWith (toL "[S1]") (pyStrip text)) &&
        !(leadsWith (toL "[S2]") (pyStrip text))) = true
    · have ht1 : t1v = toL "[S1] " ++ text := by rw [ht1def, if_pos hpre]
      refine ⟨toL "[S1]", Or.inl rfl, ?_⟩
      rw [ht1]
      rw [replDD_append (toL "[S1] ") text (by
        intro hcon
        rw [show (toL "[S1] ").getLast? = some ' ' from by decide] at hcon
        injection hcon.1 with hsp
        exact absurd hsp (by decide))]
      rw [show replDD (toL "[S1] ") = toL "[S1] " from by decide]
      rw [replNL_append, show replNL (toL "[S1] ") = toL "[S1] " from by decide]
      rw [lstripL_eq_self _ (by
        intro c hc
        rw [head?_append_of_ne_nil _ _ (by decide),
          show (toL "[S1] ").head? = some '[' from by decide] at hc
        injection hc with hc2
        rw [← hc2]
        decide)]
      rw [show toL "[S1] " = toL "[S1]" ++ [' '] from by decide, List.append_assoc]
      exact (leadsWith_iff _ _).mpr ⟨_, rfl⟩
    · have ht1 : t1v = text := by rw [ht1def, if_neg hpre]
      rw [Bool.and_eq_true, not_and_or, Bool.not_eq_true', Bool.not_eq_true',
        Bool.not_eq_false, Bool.not_eq_false] at hpre
      rcases hpre with h | h
      · exact ⟨toL "[S1]", Or.inl rfl, by rw [ht1]; exact start_preserved _ _ (Or.inl rfl) h⟩
      · exact ⟨toL "[S2]", Or.inr rfl, by rw [ht1]; exact start_preserved _ _ (Or.inr rfl) h⟩
  exact bracket_end_part (replNL (replDD t1v)) hstart
    (BackendV1.preprocess_text_for_dia text) rfl

/-- Claim C7, counterexample: every conjunct of the claim fails on the cited
code.  In src/backend.py, input `"[S1] hello"` gets `[S1]` appended again
(the text contains no `[S2]`), so two adjacent speaker markers are identical;
input `" [S1] hi"` keeps its leading space, so the output does not begin with
a marker; input `"hi [S1] "` keeps its trailing space, so the output does not
end with a marker.  In src/backend/backend.py, the output for `"hi"` ends
with the closing phrase `"That was perfect."` — not with a speaker marker. -/
theorem c7_counterexample :
    BackendV1.preprocess_text_for_dia (toL "[S1] hello") = toL "[S1] hello [S1]" ∧
    adjDistinct (markersOf (BackendV1.preprocess_text_for_dia (toL "[S1] hello"))) = false ∧
    BackendV1.preprocess_text_for_dia (toL " [S1] hi") = toL " [S1] hi [S1]" ∧
    leadsWith (toL "[S1]") (BackendV1.preprocess_text_for_dia (toL " [S1] hi")) = false ∧
    leadsWith (toL "[S2]") (BackendV1.preprocess_text_for_dia (toL " [S1] hi")) = false ∧
    BackendV1.preprocess_text_for_dia (toL "hi [S1] ") = toL "[S1] hi [S1] " ∧
    trailsWith (toL "[S1]") (BackendV1.preprocess_text_for_dia (toL "hi [S1] ")) = false ∧
    trailsWith (toL "[S2]") (BackendV1.preprocess_text_for_dia (toL "hi [S1] ")) = false ∧
    BackendV2.preprocess_text_for_dia (toL "hi") =
      toL "[S2] Here is what you wanted to hear. [S1] hi. Amazing! [S2] That was perfect." ∧
    trailsWith (toL "[S1]") (BackendV2.preprocess_text_for_dia (toL "hi")) = false ∧
    trailsWith (toL "[S2]") (BackendV2.preprocess_text_for_dia (toL "hi")) = false := by
  decide

theorem leadsWith_append_long (p a b : List Char) (h : p.length ≤ a.length) :
    leadsWith p (a ++ b) = leadsWith p a := by
  induction p generalizing a with
  | nil => simp [leadsWith]
  | cons q ps ih =>
    cases a with
    | nil =>
      exact absurd h (by simp)
    | cons c a2 =>
      simp only [List.cons_append, leadsWith, List.append_eq]
      rw [ih a2 (by simp at h; omega)]

theorem trailsWith_append_long (p x s : List Char) (h : p.length ≤ s.length) :
    trailsWith p (x ++ s) = trailsWith p s := by
  rw [trailsWith, trailsWith, List.reverse_append,
    leadsWith_append_long p.reverse s.reverse x.reverse (by simpa using h)]

theorem foldl_diaStep_leads (m : List Char) :
    ∀ (l : List (ℕ × List Char)) (n : ℕ) (acc : List Char × Bool),
      leadsWith m acc.1 = true →
      leadsWith m ((l.foldl (BackendV2.diaStep n) acc)).1 = true := by
  intro l
  induction l with
  | nil => intro n acc h; exact h
  | cons is l2 ih =>
    intro n acc h
    rw [List.foldl_cons]
    apply ih
    simp only [BackendV2.diaStep]
    by_cases h1 : 0 < is.1 ∧ is.1 % 2 = 1
    · rw [if_pos h1]
      by_cases h2 : is.1 = n / 2
      · rw [if_pos h2]
        exact leadsWith_extend m _ _ (leadsWith_extend m _ _
          (leadsWith_extend m _ _ (leadsWith_extend m _ _ (leadsWith_extend m _ _ h))))
      · rw [if_neg h2]
        exact leadsWith_extend m _ _
          (leadsWith_extend m _ _ (leadsWith_extend m _ _ (leadsWith_extend m _ _ h)))
    · rw [if_neg h1]
      by_cases h2 : is.1 = n / 2
      · rw [if_pos h2]
        exact leadsWith_extend m _ _ (leadsWith_extend m _ _ h)
      · rw [if_neg h2]
        exact leadsWith_extend m _ _ h

theorem v2_markers_shape (text : List Char) :
    leadsWith (toL "[S2]") (BackendV2.preprocess_text_for_dia text) = true ∧
    trailsWith (toL "[S1]") (BackendV2.preprocess_text_for_dia text) = false ∧
    trailsWith (toL "[S2]") (BackendV2.preprocess_text_for_dia text) = false := by
  simp only [BackendV2.preprocess_text_for_dia]
  split
  · refine ⟨?_, ?_, ?_⟩
    · exact leadsWith_extend _ _ _ (leadsWith_extend _ _ _ (by decide))
    · rw [trailsWith_append_long _ _ _ (by decide)]
      decide
    · rw [trailsWith_append_long _ _ _ (by decide)]
      decide
  · split
    · refine ⟨?_, ?_, ?_⟩
      · exact leadsWith_extend _ _ _ (leadsWith_extend _ _ _ (by decide))
      · rw [trailsWith_append_long _ _ _ (by decide)]
        decide
      · rw [trailsWith_append_long _ _ _ (by decide)]
        decide
    · refine ⟨?_, ?_, ?_⟩
      · exact leadsWith_extend _ _ _ (leadsWith_extend _ _ _ (leadsWith_extend _ _ _
          (foldl_diaStep_leads _ _ _ _ (by decide))))
      · rw [trailsWith_append_long _ _ _ (by decide)]
        decide
      · rw [trailsWith_append_long _ _ _ (by decide)]
        decide

/-- Claim C7, amended, covering both cited revisions.  For every input text:
the first revision (src/backend.py) outputs text that begins — after
discarding leading whitespace — with an explicit speaker marker and ends —
after discarding trailing whitespace — with an explicit speaker marker, while
adjacent markers may be identical and the literal first/last characters may
be whitespace; the second revision (src/backend/backend.py) outputs text that
always begins literally with the marker `[S2]` but never ends with a speaker
marker — every branch closes with a trailing phrase after the final
marker. -/
theorem c7_markers_bracket :
    ∀ text : List Char,
      (((leadsWith (toL "[S1]") (pyStrip (BackendV1.preprocess_text_for_dia text)) = true ∨
         leadsWith (toL "[S2]") (pyStrip (BackendV1.preprocess_text_for_dia text)) = true) ∧
        (trailsWith (toL "[S1]") (pyStrip (BackendV1.preprocess_text_for_dia text)) = true ∨
         trailsWith (toL "[S2]") (pyStrip (BackendV1.preprocess_text_for_dia text)) = true))) ∧
      (leadsWith (toL "[S2]") (BackendV2.preprocess_text_for_dia text) = true ∧
       trailsWith (toL "[S1]") (BackendV2.preprocess_text_for_dia text) = false ∧
       trailsWith (toL "[S2]") (BackendV2.preprocess_text_for_dia text) = false) :=
  fun text => ⟨v1_markers_bracket text, v2_markers_shape text⟩
